import Mathlib

/-!
Verification of the agreement-aggregation pipeline of the reverse_assist_2.0
repository (src/app/page.tsx), as a shallow embedding in Lean.

JavaScript strings are modelled as Lean `String`/`List Char`; the case maps
`String.prototype.toLowerCase`/`toUpperCase` are modelled on the ASCII range
(the range the normalizer's regexes classify), matching Lean core
`Char.toLower`/`Char.toUpper`.  Network fetches are modelled by explicit
outcome values (`FetchResult`), so the `Promise.allSettled` join, cancellation
and error logging become pure data flow.
-/

/-- Codepoints that JavaScript counts as whitespace: the regex class used by
the complement of the "non-space" class in the token regex, and by
`String.prototype.trim`. -/
def isJsSpace (c : Char) : Bool :=
  decide (c.toNat = 32 ∨ c.toNat = 9 ∨ c.toNat = 10 ∨ c.toNat = 11 ∨ c.toNat = 12 ∨
    c.toNat = 13 ∨ c.toNat = 160 ∨ c.toNat = 5760 ∨ (8192 ≤ c.toNat ∧ c.toNat ≤ 8202) ∨
    c.toNat = 8232 ∨ c.toNat = 8233 ∨ c.toNat = 8239 ∨ c.toNat = 8287 ∨
    c.toNat = 12288 ∨ c.toNat = 65279)

/-- The regex word class: ASCII letters, digits and underscore. -/
def isWordChar (c : Char) : Bool :=
  decide ((65 ≤ c.toNat ∧ c.toNat ≤ 90) ∨ (97 ≤ c.toNat ∧ c.toNat ≤ 122) ∨
    (48 ≤ c.toNat ∧ c.toNat ≤ 57) ∨ c.toNat = 95)

/-- The regex character class of ASCII letters, upper or lower case. -/
def isAsciiLetter (c : Char) : Bool :=
  decide ((65 ≤ c.toNat ∧ c.toNat ≤ 90) ∨ (97 ≤ c.toNat ∧ c.toNat ≤ 122))

/-- The test for the literal dot of the initialism regex. -/
def isDotChar (c : Char) : Bool :=
  decide (c.toNat = 46)

theorem char_toNat_inj {a b : Char} (h : a.toNat = b.toNat) : a = b :=
  Char.ext (UInt32.toNat.inj h)

theorem toNat_ofNat_valid {n : Nat} (h : n < 55296) : (Char.ofNat n).toNat = n := by
  rw [Char.ofNat, dif_pos (Or.inl h : Nat.isValidChar n)]
  simp [Char.ofNatAux, Char.toNat, UInt32.toNat]

theorem toNat_toLower (c : Char) :
    (Char.toLower c).toNat =
      if 65 ≤ c.toNat ∧ c.toNat ≤ 90 then c.toNat + 32 else c.toNat := by
  rw [Char.toLower]
  split
  · next h => exact toNat_ofNat_valid (by omega)
  · rfl

theorem toNat_toUpper (c : Char) :
    (Char.toUpper c).toNat =
      if 97 ≤ c.toNat ∧ c.toNat ≤ 122 then c.toNat - 32 else c.toNat := by
  rw [Char.toUpper]
  split
  · next h => exact toNat_ofNat_valid (by omega)
  · rfl

theorem isJsSpace_toLower (c : Char) : isJsSpace (Char.toLower c) = isJsSpace c := by
  simp only [isJsSpace, decide_eq_decide, toNat_toLower]
  split <;> omega

theorem isJsSpace_toUpper (c : Char) : isJsSpace (Char.toUpper c) = isJsSpace c := by
  simp only [isJsSpace, decide_eq_decide, toNat_toUpper]
  split <;> omega

theorem isWordChar_toLower (c : Char) : isWordChar (Char.toLower c) = isWordChar c := by
  simp only [isWordChar, decide_eq_decide, toNat_toLower]
  split <;> omega

theorem isWordChar_toUpper (c : Char) : isWordChar (Char.toUpper c) = isWordChar c := by
  simp only [isWordChar, decide_eq_decide, toNat_toUpper]
  split <;> omega

theorem isAsciiLetter_toLower (c : Char) : isAsciiLetter (Char.toLower c) = isAsciiLetter c := by
  simp only [isAsciiLetter, decide_eq_decide, toNat_toLower]
  split <;> omega

theorem isAsciiLetter_toUpper (c : Char) : isAsciiLetter (Char.toUpper c) = isAsciiLetter c := by
  simp only [isAsciiLetter, decide_eq_decide, toNat_toUpper]
  split <;> omega

theorem isDotChar_toLower (c : Char) : isDotChar (Char.toLower c) = isDotChar c := by
  simp only [isDotChar, decide_eq_decide, toNat_toLower]
  split <;> omega

theorem isDotChar_toUpper (c : Char) : isDotChar (Char.toUpper c) = isDotChar c := by
  simp only [isDotChar, decide_eq_decide, toNat_toUpper]
  split <;> omega

theorem toLower_toLower (c : Char) : Char.toLower (Char.toLower c) = Char.toLower c := by
  apply char_toNat_inj
  rw [toNat_toLower (Char.toLower c), toNat_toLower c]
  split_ifs <;> omega

theorem toLower_toUpper (c : Char) : Char.toLower (Char.toUpper c) = Char.toLower c := by
  apply char_toNat_inj
  rw [toNat_toLower (Char.toUpper c), toNat_toUpper c, toNat_toLower c]
  split_ifs <;> omega

theorem toUpper_toUpper (c : Char) : Char.toUpper (Char.toUpper c) = Char.toUpper c := by
  apply char_toNat_inj
  rw [toNat_toUpper (Char.toUpper c), toNat_toUpper c]
  split_ifs <;> omega

theorem toUpper_toLower (c : Char) : Char.toUpper (Char.toLower c) = Char.toUpper c := by
  apply char_toNat_inj
  rw [toNat_toUpper (Char.toLower c), toNat_toLower c, toNat_toUpper c]
  split_ifs <;> omega

theorem nonSpace_of_isWordChar {c : Char} (h : isWordChar c = true) : isJsSpace c = false := by
  simp only [isWordChar, decide_eq_true_eq] at h
  simp only [isJsSpace, decide_eq_false_iff_not]
  omega

theorem not_isWordChar_of_isJsSpace {c : Char} (h : isJsSpace c = true) :
    isWordChar c = false := by
  simp only [isJsSpace, decide_eq_true_eq] at h
  simp only [isWordChar, decide_eq_false_iff_not]
  omega

theorem toLower_eq_self_of_not_isWordChar {c : Char} (h : isWordChar c = false) :
    Char.toLower c = c := by
  apply char_toNat_inj
  rw [toNat_toLower]
  simp only [isWordChar, decide_eq_false_iff_not] at h
  split <;> omega

/-- Lower-case a character list, character-wise: the model of
`String.prototype.toLowerCase` restricted to the ASCII range. -/
def lowerL (l : List Char) : List Char := l.map Char.toLower

/-- Upper-case a character list, character-wise. -/
def upperL (l : List Char) : List Char := l.map Char.toUpper

/-- The model of `String.prototype.trim`: drop JavaScript whitespace from both
ends. -/
def trimList (l : List Char) : List Char :=
  (((l.dropWhile isJsSpace).reverse).dropWhile isJsSpace).reverse

/-- Consume the maximal leading run of letter-dot pairs of a token, returning
the number of pairs consumed and the remainder.  This is the engine of the
initialism regex of `toTitleCase`. -/
def countPairs : List Char → Nat × List Char
  | a :: b :: rest =>
    if isAsciiLetter a && isDotChar b then
      let r := countPairs rest
      (r.1 + 1, r.2)
    else (0, a :: b :: rest)
  | l => (0, l)

/-- After the letter-dot pairs, the initialism regex allows an optional single
letter and an optional final dot before the end of the token. -/
def tailOk : List Char → Bool
  | [] => true
  | [c] => isAsciiLetter c || isDotChar c
  | _ :: _ :: _ => false

/-- The initialism test of `toTitleCase`: two or more letter-dot pairs followed
by an optional trailing letter and optional trailing dot. -/
def isInitialism (w : List Char) : Bool :=
  decide (2 ≤ (countPairs w).1) && tailOk (countPairs w).2

/-- The replacement `toTitleCase` applies to each regex token: initialisms are
upper-cased wholesale, any other token gets its first character upper-cased and
the remainder lower-cased. -/
def transformWord (w : List Char) : List Char :=
  if isInitialism w then upperL w
  else
    match w with
    | [] => []
    | c :: rest => Char.toUpper c :: lowerL rest

/-- One pass of the `toTitleCase` regex replace, with explicit fuel.  A token
starts at a word character and extends over all following non-space
characters; other characters are copied unchanged.  The wrapper
`titleCaseList` always supplies fuel of at least the length of the list. -/
def titleFuel : List Char → Nat → List Char
  | [], _ => []
  | c :: rest, 0 => c :: rest
  | c :: rest, fuel + 1 =>
    if isWordChar c then
      transformWord (c :: rest.takeWhile (fun d => !isJsSpace d)) ++
        titleFuel (rest.dropWhile (fun d => !isJsSpace d)) fuel
    else
      c :: titleFuel rest fuel

/-- The `toTitleCase` normalizer on character lists. -/
def titleCaseList (l : List Char) : List Char := titleFuel l l.length

theorem length_dropWhile_le (p : α → Bool) (l : List α) :
    (l.dropWhile p).length ≤ l.length :=
  (List.dropWhile_suffix p).sublist.length_le

theorem titleFuel_eq_titleCaseList (f : Nat) :
    ∀ l : List Char, l.length ≤ f → titleFuel l f = titleCaseList l := by
  induction f using Nat.strongRecOn with
  | _ f ih =>
    intro l hl
    match l with
    | [] => cases f <;> rfl
    | c :: rest =>
      have hf : ∃ g, f = g + 1 := by
        cases f
        · simp at hl
        · exact ⟨_, rfl⟩
      obtain ⟨g, rfl⟩ := hf
      show titleFuel (c :: rest) (g + 1) = titleFuel (c :: rest) (rest.length + 1)
      simp only [titleFuel]
      by_cases hw : isWordChar c
      · simp only [hw, if_true]
        have hd : (rest.dropWhile (fun d => !isJsSpace d)).length ≤ rest.length :=
          length_dropWhile_le _ rest
        have h1 : titleFuel (rest.dropWhile (fun d => !isJsSpace d)) g =
            titleCaseList (rest.dropWhile (fun d => !isJsSpace d)) := by
          apply ih g (by omega) _ (by simp at hl; omega)
        have h2 : titleFuel (rest.dropWhile (fun d => !isJsSpace d)) rest.length =
            titleCaseList (rest.dropWhile (fun d => !isJsSpace d)) := by
          apply ih rest.length (by simp at hl; omega) _ hd
        rw [h1, h2]
      · simp only [hw, Bool.false_eq_true, if_false]
        have h1 : titleFuel rest g = titleCaseList rest := by
          apply ih g (by omega) _ (by simp at hl; omega)
        have h2 : titleFuel rest rest.length = titleCaseList rest := rfl
        rw [h1, h2]

theorem titleCase_nil : titleCaseList [] = [] := rfl

theorem titleCase_cons (c : Char) (rest : List Char) :
    titleCaseList (c :: rest) =
      if isWordChar c then
        transformWord (c :: rest.takeWhile (fun d => !isJsSpace d)) ++
          titleCaseList (rest.dropWhile (fun d => !isJsSpace d))
      else c :: titleCaseList rest := by
  show titleFuel (c :: rest) (rest.length + 1) = _
  simp only [titleFuel]
  by_cases hw : isWordChar c
  · simp only [hw, if_true]
    rw [titleFuel_eq_titleCaseList rest.length _ (length_dropWhile_le _ rest)]
  · simp only [hw, Bool.false_eq_true, if_false]
    rfl

theorem lowerL_nil : lowerL [] = [] := rfl

theorem lowerL_cons (c : Char) (l : List Char) :
    lowerL (c :: l) = Char.toLower c :: lowerL l := rfl

theorem lowerL_append (a b : List Char) : lowerL (a ++ b) = lowerL a ++ lowerL b :=
  List.map_append _ a b

theorem lowerL_lowerL (l : List Char) : lowerL (lowerL l) = lowerL l := by
  simp only [lowerL, List.map_map]
  exact List.map_congr_left fun a _ => toLower_toLower a

theorem lowerL_upperL (l : List Char) : lowerL (upperL l) = lowerL l := by
  simp only [lowerL, upperL, List.map_map]
  exact List.map_congr_left fun a _ => toLower_toUpper a

theorem upperL_upperL (l : List Char) : upperL (upperL l) = upperL l := by
  simp only [upperL, List.map_map]
  exact List.map_congr_left fun a _ => toUpper_toUpper a

theorem upperL_lowerL (l : List Char) : upperL (lowerL l) = upperL l := by
  simp only [upperL, lowerL, List.map_map]
  exact List.map_congr_left fun a _ => toUpper_toLower a

theorem countPairs_lowerL :
    ∀ l : List Char, countPairs (lowerL l) = ((countPairs l).1, lowerL (countPairs l).2)
  | [] => rfl
  | [a] => rfl
  | a :: b :: rest => by
    simp only [lowerL_cons, countPairs, isAsciiLetter_toLower, isDotChar_toLower]
    by_cases h : isAsciiLetter a && isDotChar b
    · simp only [h, if_true]
      rw [show List.map Char.toLower rest = lowerL rest from rfl, countPairs_lowerL rest]
    · simp only [h, Bool.false_eq_true, if_false]
      rfl

theorem tailOk_lowerL : ∀ l : List Char, tailOk (lowerL l) = tailOk l
  | [] => rfl
  | [c] => by simp only [lowerL_cons, lowerL_nil, tailOk, isAsciiLetter_toLower, isDotChar_toLower]
  | _ :: _ :: _ => rfl

theorem isInitialism_lowerL (l : List Char) : isInitialism (lowerL l) = isInitialism l := by
  simp only [isInitialism, countPairs_lowerL, tailOk_lowerL]

theorem transformWord_nil : transformWord [] = [] := rfl

theorem transformWord_cons (c : Char) (tk : List Char) :
    transformWord (c :: tk) =
      Char.toUpper c :: (if isInitialism (c :: tk) then upperL tk else lowerL tk) := by
  simp only [transformWord]
  split
  · simp [upperL]
  · rfl

theorem lowerL_transformWord (w : List Char) : lowerL (transformWord w) = lowerL w := by
  match w with
  | [] => rfl
  | c :: r =>
    rw [transformWord_cons]
    by_cases hi : isInitialism (c :: r)
    · simp only [hi, if_true, lowerL_cons, toLower_toUpper, lowerL_upperL]
    · simp only [hi, Bool.false_eq_true, if_false, lowerL_cons, toLower_toUpper, lowerL_lowerL]

theorem transformWord_lowerL (w : List Char) : transformWord (lowerL w) = transformWord w := by
  match w with
  | [] => rfl
  | c :: r =>
    rw [lowerL_cons, transformWord_cons, transformWord_cons]
    have he : isInitialism (Char.toLower c :: lowerL r) = isInitialism (c :: r) := by
      rw [show Char.toLower c :: lowerL r = lowerL (c :: r) from rfl, isInitialism_lowerL]
    rw [he, toUpper_toLower]
    by_cases hi : isInitialism (c :: r)
    · simp only [hi, if_true, upperL_lowerL]
    · simp only [hi, Bool.false_eq_true, if_false, lowerL_lowerL]

theorem transformWord_transformWord (w : List Char) :
    transformWord (transformWord w) = transformWord w := by
  match w with
  | [] => rfl
  | c :: r =>
    rw [transformWord_cons]
    by_cases hi : isInitialism (c :: r)
    · simp only [hi, if_true]
      rw [transformWord_cons]
      have he : isInitialism (Char.toUpper c :: upperL r) = isInitialism (c :: r) := by
        rw [← isInitialism_lowerL (Char.toUpper c :: upperL r), lowerL_cons, toLower_toUpper,
          lowerL_upperL, ← lowerL_cons, isInitialism_lowerL]
      simp only [he, hi, if_true, toUpper_toUpper, upperL_upperL]
    · simp only [hi, Bool.false_eq_true, if_false]
      rw [transformWord_cons]
      have he : isInitialism (Char.toUpper c :: lowerL r) = isInitialism (c :: r) := by
        rw [← isInitialism_lowerL (Char.toUpper c :: lowerL r), lowerL_cons, toLower_toUpper,
          lowerL_lowerL, ← lowerL_cons, isInitialism_lowerL]
      simp only [he, hi, Bool.false_eq_true, if_false, toUpper_toUpper, lowerL_lowerL]

theorem nonSpace_takeWhile (rest : List Char) :
    ∀ c ∈ rest.takeWhile (fun d => !isJsSpace d), isJsSpace c = false := by
  intro c hc
  have := List.mem_takeWhile_imp hc
  simpa using this

theorem mem_upperL_nonSpace {tk : List Char} (h : ∀ c ∈ tk, isJsSpace c = false) :
    ∀ c ∈ upperL tk, isJsSpace c = false := by
  intro c hc
  obtain ⟨a, ha, rfl⟩ := List.mem_map.mp hc
  rw [isJsSpace_toUpper]
  exact h a ha

theorem mem_lowerL_nonSpace {tk : List Char} (h : ∀ c ∈ tk, isJsSpace c = false) :
    ∀ c ∈ lowerL tk, isJsSpace c = false := by
  intro c hc
  obtain ⟨a, ha, rfl⟩ := List.mem_map.mp hc
  rw [isJsSpace_toLower]
  exact h a ha

theorem dropWhile_head_false {p : α → Bool} {l : List α} {d : α} {t : List α}
    (h : l.dropWhile p = d :: t) : p d = false := by
  have h2 := List.head?_dropWhile_not p l
  rw [h] at h2
  simpa using h2

theorem titleCase_head_space (rest : List Char) :
    titleCaseList (rest.dropWhile (fun d => !isJsSpace d)) = [] ∨
      ∃ d t, titleCaseList (rest.dropWhile (fun d => !isJsSpace d)) = d :: t ∧
        (fun d => !isJsSpace d) d = false := by
  cases hrd : rest.dropWhile (fun d => !isJsSpace d) with
  | nil => exact Or.inl rfl
  | cons d rd2 =>
    have hd : isJsSpace d = true := by
      have := dropWhile_head_false hrd
      simpa using this
    right
    refine ⟨d, titleCaseList rd2, ?_, by simp [hd]⟩
    rw [titleCase_cons, if_neg (by simp [not_isWordChar_of_isJsSpace hd])]

theorem takeWhile_append_stop {p : α → Bool} {tt rest2 : List α}
    (h1 : ∀ c ∈ tt, p c = true)
    (h2 : rest2 = [] ∨ ∃ d t, rest2 = d :: t ∧ p d = false) :
    (tt ++ rest2).takeWhile p = tt ∧ (tt ++ rest2).dropWhile p = rest2 := by
  constructor
  · rw [List.takeWhile_append_of_pos h1]
    rcases h2 with h2 | ⟨d, t, rfl, hd⟩
    · simp [h2]
    · rw [List.takeWhile_cons, hd]
      simp
  · rw [List.dropWhile_append_of_pos h1]
    rcases h2 with h2 | ⟨d, t, rfl, hd⟩
    · simp [h2]
    · rw [List.dropWhile_cons, hd]
      simp

theorem lowerL_titleCase_aux :
    ∀ n : Nat, ∀ l : List Char, l.length ≤ n → lowerL (titleCaseList l) = lowerL l := by
  intro n
  induction n with
  | zero =>
    intro l hl
    have : l = [] := List.eq_nil_of_length_eq_zero (Nat.le_zero.mp hl)
    subst this
    rfl
  | succ n ih =>
    intro l hl
    match l with
    | [] => rfl
    | c :: rest =>
      simp only [List.length_cons, Nat.add_le_add_iff_right] at hl
      rw [titleCase_cons]
      by_cases hw : isWordChar c
      · simp only [hw, if_true]
        rw [lowerL_append, lowerL_transformWord,
          ih _ (le_trans (length_dropWhile_le _ rest) hl),
          ← lowerL_append, List.cons_append, List.takeWhile_append_dropWhile]
      · simp only [hw, Bool.false_eq_true, if_false, lowerL_cons]
        rw [ih rest hl]

/-- Lower-casing the output of the normalizer gives the lower-casing of the
input: the normalizer only changes letter case. -/
theorem lowerL_titleCase (l : List Char) : lowerL (titleCaseList l) = lowerL l :=
  lowerL_titleCase_aux l.length l (le_refl _)

theorem takeWhile_nonSpace_lowerL (l : List Char) :
    (lowerL l).takeWhile (fun d => !isJsSpace d) =
      lowerL (l.takeWhile (fun d => !isJsSpace d)) := by
  rw [lowerL, List.takeWhile_map,
    show ((fun d => !isJsSpace d) ∘ Char.toLower) = (fun d => !isJsSpace d) from
      funext fun d => by simp [Function.comp, isJsSpace_toLower]]
  rfl

theorem dropWhile_nonSpace_lowerL (l : List Char) :
    (lowerL l).dropWhile (fun d => !isJsSpace d) =
      lowerL (l.dropWhile (fun d => !isJsSpace d)) := by
  rw [lowerL, List.dropWhile_map,
    show ((fun d => !isJsSpace d) ∘ Char.toLower) = (fun d => !isJsSpace d) from
      funext fun d => by simp [Function.comp, isJsSpace_toLower]]
  rfl

theorem titleCase_lowerL_aux :
    ∀ n : Nat, ∀ l : List Char, l.length ≤ n →
      titleCaseList (lowerL l) = titleCaseList l := by
  intro n
  induction n with
  | zero =>
    intro l hl
    have : l = [] := List.eq_nil_of_length_eq_zero (Nat.le_zero.mp hl)
    subst this
    rfl
  | succ n ih =>
    intro l hl
    match l with
    | [] => rfl
    | c :: rest =>
      simp only [List.length_cons, Nat.add_le_add_iff_right] at hl
      rw [lowerL_cons, titleCase_cons, titleCase_cons, isWordChar_toLower]
      by_cases hw : isWordChar c
      · simp only [hw, if_true]
        rw [takeWhile_nonSpace_lowerL, dropWhile_nonSpace_lowerL,
          show Char.toLower c :: lowerL (rest.takeWhile (fun d => !isJsSpace d)) =
            lowerL (c :: rest.takeWhile (fun d => !isJsSpace d)) from rfl,
          transformWord_lowerL,
          ih _ (le_trans (length_dropWhile_le _ rest) hl)]
      · simp only [hw, Bool.false_eq_true, if_false]
        rw [ih rest hl, toLower_eq_self_of_not_isWordChar (by simpa using hw)]

/-- The normalizer is insensitive to the letter case of its input. -/
theorem titleCase_lowerL (l : List Char) : titleCaseList (lowerL l) = titleCaseList l :=
  titleCase_lowerL_aux l.length l (le_refl _)

theorem titleCase_idem_aux :
    ∀ n : Nat, ∀ l : List Char, l.length ≤ n →
      titleCaseList (titleCaseList l) = titleCaseList l := by
  intro n
  induction n with
  | zero =>
    intro l hl
    have : l = [] := List.eq_nil_of_length_eq_zero (Nat.le_zero.mp hl)
    subst this
    rfl
  | succ n ih =>
    intro l hl
    match l with
    | [] => rfl
    | c :: rest =>
      simp only [List.length_cons, Nat.add_le_add_iff_right] at hl
      rw [titleCase_cons]
      by_cases hw : isWordChar c
      · simp only [hw, if_true]
        rw [transformWord_cons, List.cons_append, titleCase_cons, isWordChar_toUpper]
        simp only [hw, if_true]
        have htt : ∀ e ∈ (if isInitialism (c :: rest.takeWhile (fun d => !isJsSpace d)) then
            upperL (rest.takeWhile (fun d => !isJsSpace d))
          else lowerL (rest.takeWhile (fun d => !isJsSpace d))),
            (fun d => !isJsSpace d) e = true := by
          intro e he
          split at he
          · simpa using mem_upperL_nonSpace (nonSpace_takeWhile rest) e he
          · simpa using mem_lowerL_nonSpace (nonSpace_takeWhile rest) e he
        obtain ⟨hta, htb⟩ := takeWhile_append_stop htt (titleCase_head_space rest)
        rw [hta, htb]
        rw [show Char.toUpper c :: (if isInitialism (c :: rest.takeWhile (fun d => !isJsSpace d)) then
            upperL (rest.takeWhile (fun d => !isJsSpace d))
          else lowerL (rest.takeWhile (fun d => !isJsSpace d))) =
            transformWord (c :: rest.takeWhile (fun d => !isJsSpace d)) from
          (transformWord_cons c _).symm]
        rw [transformWord_transformWord,
          ih _ (le_trans (length_dropWhile_le _ rest) hl),
          transformWord_cons c, List.cons_append]
      · simp only [hw, Bool.false_eq_true, if_false]
        rw [titleCase_cons]
        simp only [hw, Bool.false_eq_true, if_false]
        rw [ih rest hl]

/-- The normalizer is idempotent on character lists. -/
theorem titleCase_idem (l : List Char) : titleCaseList (titleCaseList l) = titleCaseList l :=
  titleCase_idem_aux l.length l (le_refl _)

theorem dropWhile_dropWhile (p : α → Bool) (l : List α) :
    (l.dropWhile p).dropWhile p = l.dropWhile p := by
  cases h : l.dropWhile p with
  | nil => rfl
  | cons d t =>
    rw [List.dropWhile_cons, dropWhile_head_false h]
    simp

theorem dropWhile_space_lowerL (l : List Char) :
    (lowerL l).dropWhile isJsSpace = lowerL (l.dropWhile isJsSpace) := by
  rw [lowerL, List.dropWhile_map,
    show (isJsSpace ∘ Char.toLower) = isJsSpace from
      funext fun d => by simp [Function.comp, isJsSpace_toLower]]
  rfl

theorem lowerL_reverse (l : List Char) : lowerL l.reverse = (lowerL l).reverse :=
  List.map_reverse _ _

theorem trimList_lowerL (l : List Char) : trimList (lowerL l) = lowerL (trimList l) := by
  unfold trimList
  rw [dropWhile_space_lowerL, ← lowerL_reverse, dropWhile_space_lowerL, ← lowerL_reverse]

theorem trimList_left_trimmed (l : List Char) :
    (trimList l).dropWhile isJsSpace = trimList l := by
  unfold trimList
  cases ha : l.dropWhile isJsSpace with
  | nil => simp
  | cons c t =>
    have hc : isJsSpace c = false := dropWhile_head_false ha
    have hs : ∃ u, ((c :: t).reverse).dropWhile isJsSpace = u ++ [c] := by
      rw [List.reverse_cons, List.dropWhile_append]
      split
      · exact ⟨[], by simp [List.dropWhile_cons, hc]⟩
      · exact ⟨_, rfl⟩
    obtain ⟨u, hu⟩ := hs
    rw [hu, List.reverse_append]
    simp only [List.reverse_cons, List.reverse_nil, List.nil_append, List.singleton_append]
    rw [List.dropWhile_cons, hc]
    simp

theorem trimList_trimList (l : List Char) : trimList (trimList l) = trimList l := by
  have F1 := trimList_left_trimmed l
  show (((trimList l).dropWhile isJsSpace).reverse.dropWhile isJsSpace).reverse = trimList l
  rw [F1]
  rw [show (trimList l).reverse = ((l.dropWhile isJsSpace).reverse).dropWhile isJsSpace from by
    simp [trimList]]
  rw [dropWhile_dropWhile]
  simp [trimList]

/-- The dedup key of a normalized label is just the lower-cased trimmed raw
label. -/
theorem key_of_normalized (r : List Char) :
    trimList (lowerL (titleCaseList (trimList r))) = lowerL (trimList r) := by
  rw [lowerL_titleCase, trimList_lowerL, trimList_trimList]

/-- Two normalized labels with the same dedup key are the same string. -/
theorem titleCase_eq_of_key_eq {r1 r2 : List Char}
    (h : trimList (lowerL (titleCaseList (trimList r1))) =
      trimList (lowerL (titleCaseList (trimList r2)))) :
    titleCaseList (trimList r1) = titleCaseList (trimList r2) := by
  rw [key_of_normalized, key_of_normalized] at h
  calc titleCaseList (trimList r1)
      = titleCaseList (lowerL (trimList r1)) := (titleCase_lowerL _).symm
    _ = titleCaseList (lowerL (trimList r2)) := by rw [h]
    _ = titleCaseList (trimList r2) := titleCase_lowerL _

/-- Code-unit-wise comparison of string values: the ordering JavaScript uses
for the default sort comparator. -/
def ltList : List Char → List Char → Bool
  | [], [] => false
  | [], _ :: _ => true
  | _ :: _, [] => false
  | a :: as, b :: bs => if a.toNat = b.toNat then ltList as bs else decide (a.toNat < b.toNat)

/-- The non-strict version of the default-sort string ordering. -/
def leList (a b : List Char) : Bool := !(ltList b a)

theorem ltList_asymm : ∀ {a b : List Char}, ltList a b = true → ltList b a = false
  | [], [], h => by simp [ltList] at h
  | [], _ :: _, _ => rfl
  | _ :: _, [], h => by simp [ltList] at h
  | a :: as, b :: bs, h => by
    simp only [ltList] at h ⊢
    by_cases he : a.toNat = b.toNat
    · rw [if_pos he] at h
      rw [if_pos (he.symm), ltList_asymm h]
    · rw [if_neg he] at h
      rw [if_neg (fun hx => he (hx.symm))]
      simp only [decide_eq_true_eq] at h
      simp only [decide_eq_false_iff_not]
      omega

theorem ltList_trans : ∀ {a b c : List Char},
    ltList a b = true → ltList b c = true → ltList a c = true
  | [], [], _, h1, _ => by simp [ltList] at h1
  | [], _ :: _, [], _, h2 => by simp [ltList] at h2
  | [], _ :: _, _ :: _, _, _ => rfl
  | _ :: _, [], _, h1, _ => by simp [ltList] at h1
  | _ :: _, _ :: _, [], _, h2 => by simp [ltList] at h2
  | a :: as, b :: bs, c :: cs, h1, h2 => by
    simp only [ltList] at h1 h2 ⊢
    by_cases hab : a.toNat = b.toNat <;> by_cases hbc : b.toNat = c.toNat
    · rw [if_pos hab] at h1
      rw [if_pos hbc] at h2
      rw [if_pos (hab.trans hbc), ltList_trans h1 h2]
    · rw [if_neg (by omega)]
      rw [if_neg hbc] at h2
      simp only [decide_eq_true_eq] at h2 ⊢
      omega
    · rw [if_neg (by omega)]
      rw [if_neg hab] at h1
      simp only [decide_eq_true_eq] at h1 ⊢
      omega
    · rw [if_neg hab] at h1
      rw [if_neg hbc] at h2
      rw [if_neg (by simp only [decide_eq_true_eq] at h1 h2; omega)]
      simp only [decide_eq_true_eq] at h1 h2 ⊢
      omega

theorem ltList_irrefl : ∀ a : List Char, ltList a a = false
  | [] => rfl
  | a :: as => by simp [ltList, ltList_irrefl as]

theorem ltList_connex : ∀ {a b : List Char}, ltList a b = false → ltList b a = false → a = b
  | [], [], _, _ => rfl
  | [], _ :: _, h1, _ => by simp [ltList] at h1
  | _ :: _, [], _, h2 => by simp [ltList] at h2
  | a :: as, b :: bs, h1, h2 => by
    simp only [ltList] at h1 h2
    by_cases hab : a.toNat = b.toNat
    · rw [if_pos hab] at h1
      rw [if_pos (hab.symm)] at h2
      rw [char_toNat_inj hab, ltList_connex h1 h2]
    · rw [if_neg hab] at h1
      rw [if_neg (fun hx => hab (hx.symm))] at h2
      simp only [decide_eq_false_iff_not] at h1 h2
      omega

theorem leList_total (a b : List Char) : leList a b = true ∨ leList b a = true := by
  unfold leList
  by_cases h : ltList b a = true
  · right
    rw [ltList_asymm h]
    rfl
  · left
    simp only [Bool.not_eq_true] at h
    rw [h]
    rfl

theorem leList_trans {a b c : List Char} (h1 : leList a b = true) (h2 : leList b c = true) :
    leList a c = true := by
  unfold leList at h1 h2 ⊢
  simp only [Bool.not_eq_true'] at h1 h2 ⊢
  by_cases hca : ltList c a = true
  · exfalso
    by_cases hbc : ltList b c = true
    · have hba := ltList_trans hbc hca
      rw [h1] at hba
      exact Bool.false_ne_true hba
    · have hbceq : b = c := ltList_connex (by simpa using hbc) h2
      rw [← hbceq] at hca
      rw [h1] at hca
      exact Bool.false_ne_true hca
  · simpa using hca

/-- Does the first list start with the second? -/
def startsWithL : List Char → List Char → Bool
  | _, [] => true
  | [], _ :: _ => false
  | a :: as, b :: bs => a == b && startsWithL as bs

/-- The model of `String.prototype.includes`: some suffix of the string starts
with the needle. -/
def containsSub : List Char → List Char → Bool
  | [], sub => startsWithL [] sub
  | a :: t, sub => startsWithL (a :: t) sub || containsSub t sub

theorem containsSub_nil_right : ∀ l : List Char, containsSub l [] = true
  | [] => rfl
  | _ :: _ => rfl

/-- The `toTitleCase` normalizer of page.tsx (lines 16 to 21). -/
def toTitleCase (s : String) : String := String.mk (titleCaseList s.data)

/-- The model of `String.prototype.toLowerCase` (ASCII range). -/
def jsToLowerCase (s : String) : String := String.mk (lowerL s.data)

/-- The model of `String.prototype.trim`. -/
def jsTrim (s : String) : String := String.mk (trimList s.data)

/-- The model of the default sort comparator ordering on strings. -/
def jsLe (a b : String) : Bool := leList a.data b.data

/-- The model of `String.prototype.includes` on strings. -/
def jsIncludes (s sub : String) : Bool := containsSub s.data sub.data

/-- Insertion into a sorted list: one step of the model of
`Array.prototype.sort` with the default comparator. -/
def insertLe (x : String) : List String → List String
  | [] => [x]
  | y :: ys => if jsLe x y then x :: y :: ys else y :: insertLe x ys

/-- The model of `Array.prototype.sort()` on string arrays: ascending in the
code-unit ordering. -/
def sortLe (l : List String) : List String := l.foldr insertLe []

theorem jsLe_total (a b : String) : jsLe a b = true ∨ jsLe b a = true :=
  leList_total a.data b.data

theorem jsLe_trans {a b c : String} (h1 : jsLe a b = true) (h2 : jsLe b c = true) :
    jsLe a c = true :=
  leList_trans h1 h2

theorem mem_insertLe {x z : String} : ∀ {ys : List String}, z ∈ insertLe x ys → z = x ∨ z ∈ ys
  | [], h => by simpa [insertLe] using h
  | y :: ys, h => by
    unfold insertLe at h
    split at h
    · simpa using h
    · rcases List.mem_cons.mp h with h | h
      · exact Or.inr (by simp [h])
      · rcases mem_insertLe h with h | h
        · exact Or.inl h
        · exact Or.inr (by simp [h])

theorem pairwise_insertLe {x : String} :
    ∀ {ys : List String}, List.Pairwise (fun a b => jsLe a b = true) ys →
      List.Pairwise (fun a b => jsLe a b = true) (insertLe x ys)
  | [], _ => by simp [insertLe]
  | y :: ys, hp => by
    unfold insertLe
    obtain ⟨hy, hys⟩ := List.pairwise_cons.mp hp
    split
    · next hle =>
      refine List.pairwise_cons.mpr ⟨?_, hp⟩
      intro z hz
      rcases List.mem_cons.mp hz with rfl | hz
      · exact hle
      · exact jsLe_trans hle (hy z hz)
    · next hle =>
      refine List.pairwise_cons.mpr ⟨?_, pairwise_insertLe hys⟩
      intro z hz
      rcases mem_insertLe hz with rfl | hz
      · rcases jsLe_total y z with h | h
        · exact h
        · exact absurd h hle
      · exact hy z hz

/-- The model sort always produces an ascending list. -/
theorem sortLe_sorted : ∀ l : List String, List.Pairwise (fun a b => jsLe a b = true) (sortLe l)
  | [] => by simp [sortLe]
  | x :: l => pairwise_insertLe (sortLe_sorted l)

/-- One insertion into the model of a JavaScript `Map` built from a list of
key-value pairs: an existing key keeps its position but its value is
overwritten (the `Map` constructor is last-write-wins), a new key is
appended. -/
def jsMapInsert (acc : List (String × String)) (kv : String × String) :
    List (String × String) :=
  if acc.any (fun p => p.1 == kv.1) then
    acc.map (fun p => if p.1 == kv.1 then (p.1, kv.2) else p)
  else acc ++ [kv]

/-- Modelled from the spec: insertion that keeps the first-seen value of each
key as the canonical display form. -/
def firstInsert (acc : List (String × String)) (kv : String × String) :
    List (String × String) :=
  if acc.any (fun p => p.1 == kv.1) then acc else acc ++ [kv]

/-- The dedup step of the aggregator (page.tsx line 98): build a `Map` keyed
by the lower-cased trimmed label with the trimmed label as value, then list
the values in key insertion order. -/
def dedupMajors (all : List String) : List String :=
  ((all.map (fun m => (jsTrim (jsToLowerCase m), jsTrim m))).foldl jsMapInsert []).map Prod.snd

/-- Modelled from the spec: the same dedup, but keeping the first-seen
instance of each key. -/
def dedupFirstSeen (all : List String) : List String :=
  ((all.map (fun m => (jsTrim (jsToLowerCase m), jsTrim m))).foldl firstInsert []).map Prod.snd

theorem foldl_jsMapInsert_eq_firstInsert :
    ∀ (kvs : List (String × String)) (acc : List (String × String)),
      (∀ p ∈ kvs, ∀ q ∈ kvs, p.1 = q.1 → p.2 = q.2) →
      (∀ a ∈ acc, ∀ p ∈ kvs, a.1 = p.1 → a.2 = p.2) →
      kvs.foldl jsMapInsert acc = kvs.foldl firstInsert acc
  | [], _, _, _ => rfl
  | kv :: kvs, acc, h1, h2 => by
    simp only [List.foldl_cons]
    cases hmem : acc.any (fun p => p.1 == kv.1) with
    | false =>
      rw [jsMapInsert, firstInsert, hmem]
      simp only [Bool.false_eq_true, if_false]
      apply foldl_jsMapInsert_eq_firstInsert kvs (acc ++ [kv])
      · intro p hp q hq hk
        exact h1 p (List.mem_cons_of_mem _ hp) q (List.mem_cons_of_mem _ hq) hk
      · intro a ha p hp hk
        rcases List.mem_append.mp ha with ha | ha
        · exact h2 a ha p (List.mem_cons_of_mem _ hp) hk
        · have : a = kv := by simpa using ha
          subst this
          exact h1 a (List.mem_cons_self _ _) p (List.mem_cons_of_mem _ hp) hk
    | true =>
      rw [jsMapInsert, firstInsert, hmem]
      simp only [if_true]
      have hmap : acc.map (fun p => if p.1 == kv.1 then (p.1, kv.2) else p) = acc := by
        conv_rhs => rw [← List.map_id acc]
        apply List.map_congr_left
        intro a ha
        by_cases hk : a.1 == kv.1
        · simp only [hk, if_true, id]
          have hv : a.2 = kv.2 :=
            h2 a ha kv (List.mem_cons_self _ _) (by simpa using hk)
          rw [← hv]
        · simp only [hk, Bool.false_eq_true, if_false, id]
      rw [hmap]
      apply foldl_jsMapInsert_eq_firstInsert kvs acc
      · intro p hp q hq hk
        exact h1 p (List.mem_cons_of_mem _ hp) q (List.mem_cons_of_mem _ hq) hk
      · intro a ha p hp hk
        exact h2 a ha p (List.mem_cons_of_mem _ hp) hk

/-- When every label in the list is a normalized label, the last-write-wins
dedup of the source and the first-seen dedup of the spec coincide. -/
theorem dedupMajors_eq_firstSeen {all : List String}
    (h : ∀ m ∈ all, ∃ raw : String, m = toTitleCase (jsTrim raw)) :
    dedupMajors all = dedupFirstSeen all := by
  unfold dedupMajors dedupFirstSeen
  congr 1
  apply foldl_jsMapInsert_eq_firstInsert
  · intro p hp q hq hk
    obtain ⟨m1, hm1, rfl⟩ := List.mem_map.mp hp
    obtain ⟨m2, hm2, rfl⟩ := List.mem_map.mp hq
    obtain ⟨r1, hr1⟩ := h m1 hm1
    obtain ⟨r2, hr2⟩ := h m2 hm2
    subst hr1
    subst hr2
    simp only [jsTrim, jsToLowerCase, toTitleCase] at hk ⊢
    have hk2 : trimList (lowerL (titleCaseList (trimList r1.data))) =
        trimList (lowerL (titleCaseList (trimList r2.data))) := by
      have := congrArg String.data hk
      simpa using this
    have := titleCase_eq_of_key_eq hk2
    rw [this]
  · intro a ha
    simp at ha

/-- An institution display name entry (page.tsx type Name). -/
structure InstitutionName where
  name : String
  hasDepartments : Bool
  hideInList : Bool
deriving DecidableEq

/-- An institution of the catalog (page.tsx type Institution). -/
structure Institution where
  code : String
  names : List InstitutionName
  id : String
  isCommunityCollege : Bool
  beginId : String
deriving DecidableEq

/-- A raw agreement record from the agreement-list endpoint (page.tsx type
AgreementInstitution). -/
structure AgreementInstitution where
  code : Option String
  institutionName : Option String
  isCommunityCollege : Bool
  sendingYearIds : Option (List String)
  id : Option String
  academicYearId : Option String
  receivingYearIds : Option (List String)
deriving DecidableEq

/-- A major-category report (page.tsx type Agreement). -/
structure Agreement where
  label : Option String
  key : Option String
deriving DecidableEq

/-- The report-list payload of the per-partner endpoint (page.tsx type
Agreements). -/
structure Agreements where
  reports : Option (List Agreement)
deriving DecidableEq

/-- An entry produced by the agreement mapping (page.tsx lines 71 to 75). -/
structure ResolvedAgreement where
  id : Option String
  isCommunityCollege : Bool
  academicYearId : Option String
deriving DecidableEq

/-- Resolve a partner institution id (page.tsx line 72): the first catalog
institution any of whose display names contains the partner free-text name as
a substring. -/
def resolveInstitutionId (schools : List Institution) (institutionName : String) :
    Option String :=
  (schools.find? (fun inst => inst.names.any (fun n => jsIncludes n.name institutionName))).map
    Institution.id

/-- Derive the academic year (page.tsx line 73): the last element of
sendingYearIds when that yields one, else the last element of
receivingYearIds. -/
def deriveAcademicYearId (sending receiving : Option (List String)) : Option String :=
  match sending.bind List.getLast? with
  | some y => some y
  | none => receiving.bind List.getLast?

/-- The agreement mapping (page.tsx lines 71 to 75); an absent
institutionName is defaulted to the empty string. -/
def resolveAgreement (schools : List Institution) (school : AgreementInstitution) :
    ResolvedAgreement where
  id := resolveInstitutionId schools (school.institutionName.getD "")
  isCommunityCollege := school.isCommunityCollege
  academicYearId := deriveAcademicYearId school.sendingYearIds school.receivingYearIds

/-- JavaScript truthiness of an optional string: undefined and the empty
string are falsy. -/
def optTruthy (o : Option String) : Bool :=
  match o with
  | none => false
  | some s => !(s == "")

/-- The query parameters of one per-partner fetch of /api/agreements. -/
structure ApiCall where
  receivingInstitutionId : String
  sendingInstitutionId : String
  academicYearId : String
deriving DecidableEq

/-- The guard of the per-partner request (page.tsx line 79): an entry with a
falsy id or academic year issues no network call. -/
def partnerRequest (institutionId : String) (a : ResolvedAgreement) : Option ApiCall :=
  if optTruthy a.id && optTruthy a.academicYearId then
    some ⟨institutionId, a.id.getD "", a.academicYearId.getD ""⟩
  else none

/-- The outcome of one modelled network fetch. -/
inductive FetchResult (α : Type) where
  | ok (value : α)
  | canceled
  | failed (message : String)
deriving DecidableEq

/-- One entry of a Promise.allSettled result: fulfilled with a value, or
rejected, remembering whether the rejection was a cancellation. -/
inductive SettledResult (α : Type) where
  | fulfilled (value : α)
  | rejected (isCancel : Bool)
deriving DecidableEq

/-- The normalization applied to each fetched report label (page.tsx line
93): default an absent label to the empty string, trim it, title-case it. -/
def reportLabels (resp : Agreements) : List String :=
  (resp.reports.getD []).map (fun r => toTitleCase (jsTrim (r.label.getD "")))

/-- One per-partner request as settled by Promise.allSettled (page.tsx lines
78 to 95): an inert entry fulfills with the empty list without a network
call; an issued request settles according to its fetch outcome. -/
def partnerSettled (institutionId : String) (a : ResolvedAgreement)
    (outcome : FetchResult Agreements) : SettledResult (List String) :=
  match partnerRequest institutionId a with
  | none => .fulfilled []
  | some _ =>
    match outcome with
    | .ok resp => .fulfilled (reportLabels resp)
    | .canceled => .rejected true
    | .failed _ => .rejected false

/-- Settle every per-partner request in source agreement order, feeding each
position its own fetch outcome. -/
def settleAll (institutionId : String) (agreements : List ResolvedAgreement)
    (outcome : Nat → FetchResult Agreements) : List (SettledResult (List String)) :=
  match agreements with
  | [] => []
  | a :: rest =>
    partnerSettled institutionId a (outcome 0) ::
      settleAll institutionId rest (fun i => outcome (i + 1))

/-- The allow-partial-failure join (page.tsx line 96): fulfilled entries
contribute their values in order, rejected entries contribute nothing. -/
def collectFulfilled (settled : List (SettledResult (List String))) : List String :=
  settled.flatMap (fun r => match r with | .fulfilled v => v | .rejected _ => [])

/-- The dedup and sort of the aggregator (page.tsx line 98). -/
def uniqueSortedMajors (all : List String) : List String :=
  sortLe (dedupMajors all)

/-- The observable effects of one run of getAndSetInstitutionAgreements:
which state setters were called and with what, what was logged, and which
per-partner network calls were issued. -/
structure RunResult where
  agreementsSet : Option (List ResolvedAgreement)
  majorsSet : Option (List String)
  selectedMajorSet : Option String
  logs : List String
  networkCalls : List ApiCall
deriving DecidableEq

/-- The model of getAndSetInstitutionAgreements (page.tsx lines 67 to 105).
The agreements-list fetch outcome and the per-partner outcomes (indexed by
entry position) are explicit inputs.  A rejection of the agreements-list
fetch reaches the catch block, where axios.isCancel suppresses logging for
cancellations; per-partner rejections are absorbed by Promise.allSettled and
never reach the catch block, so the majors and selected-major setters always
run once the agreement list has resolved. -/
def getAndSetInstitutionAgreements (institutionId : String) (schools : List Institution)
    (agreementsFetch : FetchResult (List AgreementInstitution))
    (partnerOutcome : Nat → FetchResult Agreements) : RunResult :=
  match agreementsFetch with
  | .canceled => ⟨none, none, none, [], []⟩
  | .failed msg => ⟨none, none, none, ["Fetch agreements failed: " ++ msg], []⟩
  | .ok data =>
    let agreements := data.map (resolveAgreement schools)
    let settled := settleAll institutionId agreements partnerOutcome
    let unique := uniqueSortedMajors (collectFulfilled settled)
    ⟨some agreements, some unique, some ((unique.head?).getD ""),
      [], agreements.filterMap (partnerRequest institutionId)⟩

theorem collectFulfilled_cons (r : SettledResult (List String))
    (rest : List (SettledResult (List String))) :
    collectFulfilled (r :: rest) =
      (match r with | .fulfilled v => v | .rejected _ => []) ++ collectFulfilled rest := rfl

theorem collectFulfilled_append_rejected :
    ∀ (l1 l2 : List (SettledResult (List String))) (b : Bool),
      collectFulfilled (l1 ++ .rejected b :: l2) = collectFulfilled (l1 ++ l2)
  | [], l2, b => by
    rw [List.nil_append, List.nil_append, collectFulfilled_cons]
    rfl
  | r :: l1, l2, b => by
    rw [List.cons_append, List.cons_append, collectFulfilled_cons, collectFulfilled_cons,
      collectFulfilled_append_rejected l1 l2 b]

/-- Decidable form of a regex token: nonempty, starting with a word
character, containing no whitespace. -/
def tokenOk (w : List Char) : Bool :=
  match w with
  | [] => false
  | c :: _ => isWordChar c && w.all (fun d => !isJsSpace d)

/-- Join a list of tokens with single spaces. -/
def joinSpace : List (List Char) → List Char
  | [] => []
  | [w] => w
  | w :: ws => w ++ ' ' :: joinSpace ws

theorem titleCase_joinSpace :
    ∀ ws : List (List Char), (∀ w ∈ ws, tokenOk w = true) →
      titleCaseList (joinSpace ws) = joinSpace (ws.map transformWord)
  | [], _ => rfl
  | [w], h => by
    have hw := h w (List.mem_cons_self _ _)
    match w, hw with
    | c :: t, hw =>
      obtain ⟨hc, hall⟩ := (Bool.and_eq_true _ _).mp hw
      show titleCaseList (c :: t) = joinSpace [transformWord (c :: t)]
      rw [titleCase_cons, if_pos hc]
      have htw : t.takeWhile (fun d => !isJsSpace d) = t :=
        List.takeWhile_eq_self_iff.mpr (by
          intro x hx
          have := (List.all_eq_true.mp hall) x (List.mem_cons_of_mem _ hx)
          simpa using this)
      have hdw : t.dropWhile (fun d => !isJsSpace d) = [] := by
        have := congrArg List.length (List.takeWhile_append_dropWhile
          (p := fun d => !isJsSpace d) (l := t))
        rw [htw] at this
        simp only [List.length_append] at this
        exact List.eq_nil_of_length_eq_zero (by omega)
      rw [htw, hdw, titleCase_nil, List.append_nil]
      rfl
  | w1 :: w2 :: ws, h => by
    have hw := h w1 (List.mem_cons_self _ _)
    match w1, hw with
    | c :: t, hw =>
      obtain ⟨hc, hall⟩ := (Bool.and_eq_true _ _).mp hw
      show titleCaseList ((c :: t) ++ ' ' :: joinSpace (w2 :: ws)) = _
      rw [List.cons_append, titleCase_cons, if_pos hc]
      have hallt : ∀ x ∈ t, (fun d => !isJsSpace d) x = true := by
        intro x hx
        exact (List.all_eq_true.mp hall) x (List.mem_cons_of_mem _ hx)
      have htw : (t ++ ' ' :: joinSpace (w2 :: ws)).takeWhile (fun d => !isJsSpace d) = t := by
        rw [List.takeWhile_append_of_pos hallt, List.takeWhile_cons]
        simp [isJsSpace]
      have hdw : (t ++ ' ' :: joinSpace (w2 :: ws)).dropWhile (fun d => !isJsSpace d) =
          ' ' :: joinSpace (w2 :: ws) := by
        rw [List.dropWhile_append_of_pos hallt, List.dropWhile_cons]
        simp [isJsSpace]
      rw [htw, hdw, titleCase_cons,
        if_neg (by simp [not_isWordChar_of_isJsSpace (show isJsSpace ' ' = true by decide)]),
        titleCase_joinSpace (w2 :: ws) (fun w hw2 => h w (List.mem_cons_of_mem _ hw2))]
      show transformWord (c :: t) ++ ' ' :: joinSpace ((w2 :: ws).map transformWord) = _
      rw [List.map_cons]
      cases hm : (w2 :: ws).map transformWord with
      | nil => simp at hm
      | cons u us => rfl

/-- Spec-side description of an initialism token: two or more single letters
each followed by a period, then optionally a trailing bare letter, or a
trailing period. -/
def InitialismShape (w : List Char) : Prop :=
  ∃ ls : List Char, 2 ≤ ls.length ∧ (∀ c ∈ ls, isAsciiLetter c = true) ∧
    (w = ls.flatMap (fun c => [c, '.']) ∨
     (∃ c, isAsciiLetter c = true ∧ w = ls.flatMap (fun c => [c, '.']) ++ [c]) ∨
     w = ls.flatMap (fun c => [c, '.']) ++ ['.'])

theorem dot_of_isDotChar {b : Char} (h : isDotChar b = true) : b = '.' := by
  apply char_toNat_inj
  simp only [isDotChar, decide_eq_true_eq] at h
  rw [h]
  rfl

theorem countPairs_decomp : ∀ w : List Char, ∃ ls : List Char,
    (∀ c ∈ ls, isAsciiLetter c = true) ∧ ls.length = (countPairs w).1 ∧
    w = ls.flatMap (fun c => [c, '.']) ++ (countPairs w).2
  | [] => ⟨[], by simp, rfl, rfl⟩
  | [a] => ⟨[], by simp, rfl, rfl⟩
  | a :: b :: rest => by
    by_cases h : (isAsciiLetter a && isDotChar b) = true
    · obtain ⟨ha, hb⟩ := (Bool.and_eq_true _ _).mp h
      have hb2 : b = '.' := dot_of_isDotChar hb
      subst hb2
      obtain ⟨ls, h1, h2, h3⟩ := countPairs_decomp rest
      refine ⟨a :: ls, ?_, ?_, ?_⟩
      · intro c hc
        rcases List.mem_cons.mp hc with rfl | hc
        · exact ha
        · exact h1 c hc
      · simp only [countPairs, h, if_true, List.length_cons, h2]
      · simp only [countPairs, h, if_true, List.flatMap_cons, List.cons_append,
          List.append_assoc, List.nil_append]
        rw [← h3]
    · exact ⟨[], by simp, by simp [countPairs, h], by simp [countPairs, h]⟩

theorem countPairs_pairs_append (r : List Char) :
    ∀ ls : List Char, (∀ c ∈ ls, isAsciiLetter c = true) →
      countPairs (ls.flatMap (fun c => [c, '.']) ++ r) =
        (ls.length + (countPairs r).1, (countPairs r).2)
  | [], _ => by simp
  | c :: ls, h => by
    have hc : isAsciiLetter c = true := h c (List.mem_cons_self _ _)
    show countPairs (c :: '.' :: (ls.flatMap (fun c => [c, '.']) ++ r)) = _
    rw [countPairs]
    rw [if_pos (by simp [hc, isDotChar])]
    rw [countPairs_pairs_append r ls (fun x hx => h x (List.mem_cons_of_mem _ hx))]
    simp only [List.length_cons]
    rw [Nat.add_right_comm]

theorem isInitialism_iff_shape (w : List Char) : isInitialism w = true ↔ InitialismShape w := by
  constructor
  · intro h
    obtain ⟨ls, h1, h2, h3⟩ := countPairs_decomp w
    unfold isInitialism at h
    obtain ⟨hn, ht⟩ := (Bool.and_eq_true _ _).mp h
    have hlen : 2 ≤ ls.length := by
      simp only [decide_eq_true_eq] at hn
      omega
    refine ⟨ls, hlen, h1, ?_⟩
    cases hr : (countPairs w).2 with
    | nil =>
      left
      rw [h3, hr, List.append_nil]
    | cons c t =>
      cases t with
      | nil =>
        rw [hr] at ht
        rcases (Bool.or_eq_true _ _).mp ht with hl | hd
        · right
          left
          exact ⟨c, hl, by rw [h3, hr]⟩
        · right
          right
          rw [h3, hr, dot_of_isDotChar hd]
      | cons d t2 =>
        rw [hr] at ht
        simp [tailOk] at ht
  · rintro ⟨ls, hlen, hls, hcase⟩
    unfold isInitialism
    rcases hcase with rfl | ⟨c, hc, rfl⟩ | rfl
    · rw [show ls.flatMap (fun c => [c, '.']) = ls.flatMap (fun c => [c, '.']) ++ [] from
        (List.append_nil _).symm]
      rw [countPairs_pairs_append [] ls hls]
      simp only [countPairs, tailOk, Bool.and_eq_true, decide_eq_true_eq]
      exact ⟨by omega, trivial⟩
    · rw [countPairs_pairs_append [c] ls hls]
      simp only [countPairs, tailOk, Bool.and_eq_true, decide_eq_true_eq]
      exact ⟨by omega, by simp [hc]⟩
    · rw [countPairs_pairs_append ['.'] ls hls]
      simp only [countPairs, tailOk, Bool.and_eq_true, decide_eq_true_eq]
      exact ⟨by omega, by simp [isDotChar]⟩

theorem names_any_empty_needle (ns : List InstitutionName) :
    ns.any (fun n => jsIncludes n.name "") = !ns.isEmpty := by
  cases ns with
  | nil => rfl
  | cons n t =>
    simp only [List.any_cons, jsIncludes, List.isEmpty_cons, Bool.not_false]
    rw [containsSub_nil_right]
    rfl

theorem resolveInstitutionId_empty_needle (schools : List Institution) :
    resolveInstitutionId schools "" =
      (schools.find? (fun inst => !inst.names.isEmpty)).map Institution.id := by
  unfold resolveInstitutionId
  rw [show (fun inst : Institution => inst.names.any (fun n => jsIncludes n.name "")) =
    (fun inst : Institution => !inst.names.isEmpty) from
    funext fun inst => names_any_empty_needle inst.names]

/-- C1: dedup identity is the lower-cased trimmed label, and on normalized
labels the canonical display form kept per key coincides with the first-seen
normalized instance (the Map of the source is last-write-wins, but normalized
labels with equal keys are identical strings); concretely, aggregating the
three case variants of "Computer Science" yields exactly one entry,
"Computer Science". -/
theorem dedup_case_insensitive_first_seen :
    (∀ all : List String, (∀ m ∈ all, ∃ raw : String, m = toTitleCase (jsTrim raw)) →
      dedupMajors all = dedupFirstSeen all) ∧
    uniqueSortedMajors (reportLabels ⟨some [⟨some "Computer Science", none⟩,
      ⟨some "computer science", none⟩, ⟨some "COMPUTER SCIENCE", none⟩]⟩) =
      ["Computer Science"] :=
  ⟨fun _ h => dedupMajors_eq_firstSeen h, by decide⟩

/-- Witness for C1 at a concrete list of normalized labels. -/
theorem dedup_case_insensitive_first_seen_witness :
    (∀ m ∈ ["Computer Science", "B.S. In Art"], ∃ raw : String, m = toTitleCase (jsTrim raw)) ∧
    dedupMajors ["Computer Science", "B.S. In Art"] =
      dedupFirstSeen ["Computer Science", "B.S. In Art"] := by
  have h : ∀ m ∈ ["Computer Science", "B.S. In Art"],
      ∃ raw : String, m = toTitleCase (jsTrim raw) := by
    intro m hm
    rcases List.mem_cons.mp hm with rfl | hm
    · exact ⟨"computer science", by decide⟩
    rcases List.mem_cons.mp hm with rfl | hm
    · exact ⟨"b.s. in art", by decide⟩
    simp at hm
  exact ⟨h, dedup_case_insensitive_first_seen.1 _ h⟩

/-- C2: the allSettled join isolates failures: a rejected entry anywhere
contributes nothing and leaves the rest of the collection unchanged, and in
the concrete run where 2 of 3 partner fetches fail and one resolves with
Physics, the aggregation result is the Physics list with nothing logged, not
an error. -/
theorem partial_failure_isolation :
    (∀ (l1 l2 : List (SettledResult (List String))) (b : Bool),
      collectFulfilled (l1 ++ .rejected b :: l2) = collectFulfilled (l1 ++ l2)) ∧
    (getAndSetInstitutionAgreements "11"
      [⟨"AAA", [⟨"Alpha College", false, false⟩], "1", true, ""⟩,
       ⟨"BBB", [⟨"Beta College", false, false⟩], "2", true, ""⟩,
       ⟨"CCC", [⟨"Gamma College", false, false⟩], "3", true, ""⟩]
      (.ok [⟨none, some "Alpha College", true, some ["71", "72"], none, none, none⟩,
            ⟨none, some "Beta College", true, some ["71"], none, none, none⟩,
            ⟨none, some "Gamma College", true, some ["70"], none, none, none⟩])
      (fun i => if i == 2 then .ok ⟨some [⟨some "Physics", some "k"⟩]⟩
        else .failed "network")).majorsSet = some ["Physics"] ∧
    (getAndSetInstitutionAgreements "11"
      [⟨"AAA", [⟨"Alpha College", false, false⟩], "1", true, ""⟩,
       ⟨"BBB", [⟨"Beta College", false, false⟩], "2", true, ""⟩,
       ⟨"CCC", [⟨"Gamma College", false, false⟩], "3", true, ""⟩]
      (.ok [⟨none, some "Alpha College", true, some ["71", "72"], none, none, none⟩,
            ⟨none, some "Beta College", true, some ["71"], none, none, none⟩,
            ⟨none, some "Gamma College", true, some ["70"], none, none, none⟩])
      (fun i => if i == 2 then .ok ⟨some [⟨some "Physics", some "k"⟩]⟩
        else .failed "network")).logs = [] :=
  ⟨collectFulfilled_append_rejected, by decide, by decide⟩

/-- C3 as stated fails on the code: aborting the cancellation signal while
the per-partner fetches are in flight makes every pending fetch settle as a
cancellation rejection, which Promise.allSettled absorbs, and the code then
still calls setMajors and setSelectedMajor: a state mutation attributable to
the aborted selection. -/
theorem cancellation_midflight_still_updates :
    (getAndSetInstitutionAgreements "11"
      [⟨"AAA", [⟨"Alpha College", false, false⟩], "7", true, ""⟩]
      (.ok [⟨none, some "Alpha College", true, some ["71", "72"], none, none, none⟩])
      (fun _ => .canceled)).majorsSet = some [] ∧
    (getAndSetInstitutionAgreements "11"
      [⟨"AAA", [⟨"Alpha College", false, false⟩], "7", true, ""⟩]
      (.ok [⟨none, some "Alpha College", true, some ["71", "72"], none, none, none⟩])
      (fun _ => .canceled)).selectedMajorSet = some "" := by
  constructor
  · decide
  · decide

/-- C3 amended: an abort during the initial agreements-list fetch yields no
state mutation and no log; but once the agreement list has resolved, the
majors-list and selected-major updates happen regardless of cancellation of
the per-partner fetches (built from whatever fulfilled before the abort). -/
theorem cancellation_no_mutation_amended :
    (∀ (institutionId : String) (schools : List Institution)
      (po : Nat → FetchResult Agreements),
      getAndSetInstitutionAgreements institutionId schools .canceled po =
        ⟨none, none, none, [], []⟩) ∧
    (∀ (institutionId : String) (schools : List Institution)
      (data : List AgreementInstitution) (po : Nat → FetchResult Agreements),
      (getAndSetInstitutionAgreements institutionId schools (.ok data) po).majorsSet.isSome
        = true) :=
  ⟨fun _ _ _ => rfl, fun _ _ _ _ => rfl⟩

/-- C4: the label normalizer is idempotent. -/
theorem toTitleCase_idempotent (s : String) :
    toTitleCase (toTitleCase s) = toTitleCase s :=
  congrArg String.mk (titleCase_idem s.data)

/-- C5: the derived academicYearId is the last element of sendingYearIds when
that yields one, else the last element of receivingYearIds, and it is absent
exactly when neither list yields a last element. -/
theorem academicYearId_last_element :
    (∀ (s r : Option (List String)) (xs : List String) (x : String),
      s = some xs → xs.getLast? = some x → deriveAcademicYearId s r = some x) ∧
    (∀ s r : Option (List String), s.bind List.getLast? = none →
      deriveAcademicYearId s r = r.bind List.getLast?) ∧
    (∀ s r : Option (List String),
      deriveAcademicYearId s r = none ↔
        s.bind List.getLast? = none ∧ r.bind List.getLast? = none) := by
  refine ⟨?_, ?_, ?_⟩
  · intro s r xs x hs hx
    subst hs
    unfold deriveAcademicYearId
    simp [hx]
  · intro s r h
    unfold deriveAcademicYearId
    rw [h]
  · intro s r
    unfold deriveAcademicYearId
    cases h : s.bind List.getLast? with
    | some y => simp [h]
    | none => simp [h]

/-- Witness for C5 at concrete year lists. -/
theorem academicYearId_last_element_witness :
    (some ["71", "72"] : Option (List String)) = some ["71", "72"] ∧
    ["71", "72"].getLast? = some "72" ∧
    deriveAcademicYearId (some ["71", "72"]) (some ["70"]) = some "72" :=
  ⟨rfl, by decide,
    academicYearId_last_element.1 (some ["71", "72"]) (some ["70"]) ["71", "72"] "72" rfl
      (by decide)⟩

/-- C6: an agreement entry missing its resolved id or its academic year
issues no network call and settles as an empty contribution whatever its
outcome slot holds, without error; and a per-partner network call is issued
only when both are present. -/
theorem missing_data_zero_calls :
    (∀ (recv : String) (a : ResolvedAgreement) (outcome : FetchResult Agreements),
      (a.id = none ∨ a.academicYearId = none) →
        partnerRequest recv a = none ∧
        partnerSettled recv a outcome = .fulfilled []) ∧
    (∀ (recv : String) (a : ResolvedAgreement),
      (partnerRequest recv a).isSome = true →
        a.id.isSome = true ∧ a.academicYearId.isSome = true) := by
  constructor
  · intro recv a outcome h
    have hreq : partnerRequest recv a = none := by
      unfold partnerRequest
      rcases h with h | h <;> rw [h] <;> simp [optTruthy]
    refine ⟨hreq, ?_⟩
    unfold partnerSettled
    rw [hreq]
  · intro recv a h
    unfold partnerRequest at h
    split at h
    · next hcond =>
      obtain ⟨h1, h2⟩ := (Bool.and_eq_true _ _).mp hcond
      constructor
      · cases ha : a.id with
        | none => rw [ha] at h1; simp [optTruthy] at h1
        | some s => simp
      · cases ha : a.academicYearId with
        | none => rw [ha] at h2; simp [optTruthy] at h2
        | some s => simp
    · simp at h

/-- Witness for C6 at a concrete inert agreement entry. -/
theorem missing_data_zero_calls_witness :
    ((⟨none, false, some "72"⟩ : ResolvedAgreement).id = none ∨
      (⟨none, false, some "72"⟩ : ResolvedAgreement).academicYearId = none) ∧
    partnerRequest "11" ⟨none, false, some "72"⟩ = none ∧
    partnerSettled "11" ⟨none, false, some "72"⟩ (.failed "boom") = .fulfilled [] :=
  ⟨Or.inl rfl, missing_data_zero_calls.1 "11" ⟨none, false, some "72"⟩ (.failed "boom")
    (Or.inl rfl)⟩

/-- C7: the normalizer splits on token boundaries; a token is upper-cased
exactly when it has the spec initialism shape (two or more single letters
each followed by a period, optional trailing bare letter, optional trailing
period), every other token is emitted with its first character upper-cased
and the remainder lower-cased; concretely "b.s. in computer science"
normalizes to "B.S. In Computer Science". -/
theorem normalizer_tokenization_rule :
    (∀ w : List Char, isInitialism w = true ↔ InitialismShape w) ∧
    (∀ ws : List (List Char), (∀ w ∈ ws, tokenOk w = true) →
      titleCaseList (joinSpace ws) = joinSpace (ws.map transformWord)) ∧
    toTitleCase "b.s. in computer science" = "B.S. In Computer Science" :=
  ⟨isInitialism_iff_shape, titleCase_joinSpace, by decide⟩

/-- Witness for C7 at a concrete token list. -/
theorem normalizer_tokenization_rule_witness :
    (∀ w ∈ [("b.s." : String).data, ("in" : String).data], tokenOk w = true) ∧
    titleCaseList (joinSpace [("b.s." : String).data, ("in" : String).data]) =
      joinSpace ([("b.s." : String).data, ("in" : String).data].map transformWord) :=
  ⟨by decide, normalizer_tokenization_rule.2.1 _ (by decide)⟩

/-- C8: the aggregate major list is always sorted ascending in the default
code-unit string ordering, the unsorted concrete example comes out sorted,
and the caller takes the head of the result as the default selected major,
with the empty string standing for none when the result is empty. -/
theorem aggregate_sorted_and_default_selection :
    (∀ all : List String,
      List.Pairwise (fun a b => jsLe a b = true) (uniqueSortedMajors all)) ∧
    uniqueSortedMajors ["Zoology", "Biology", "Art"] = ["Art", "Biology", "Zoology"] ∧
    (∀ (institutionId : String) (schools : List Institution)
      (data : List AgreementInstitution) (po : Nat → FetchResult Agreements),
      (getAndSetInstitutionAgreements institutionId schools (.ok data) po).selectedMajorSet =
        some ((((getAndSetInstitutionAgreements institutionId schools (.ok data)
          po).majorsSet.getD []).head?).getD "")) :=
  ⟨fun _ => sortLe_sorted _, by decide, fun _ _ _ _ => rfl⟩

/-- C9 as stated fails on the code: a per-partner fetch that fails for a
non-cancellation reason is absorbed by Promise.allSettled and never reaches
the catch block, so its error is not logged anywhere: the run with one
failing partner fetch logs nothing (the fetch does contribute no majors). -/
theorem partner_failure_unlogged_cex :
    (getAndSetInstitutionAgreements "11"
      [⟨"AAA", [⟨"Alpha College", false, false⟩], "7", true, ""⟩]
      (.ok [⟨none, some "Alpha College", true, some ["71", "72"], none, none, none⟩])
      (fun _ => .failed "network down")).logs = [] ∧
    (getAndSetInstitutionAgreements "11"
      [⟨"AAA", [⟨"Alpha College", false, false⟩], "7", true, ""⟩]
      (.ok [⟨none, some "Alpha College", true, some ["71", "72"], none, none, none⟩])
      (fun _ => .failed "network down")).majorsSet = some [] := by
  constructor
  · decide
  · decide

/-- C9 amended: a failing or cancelled per-partner fetch contributes no
majors and surfaces nothing to the UI, but it is not logged either: once the
agreement list resolves, the run logs nothing at all; only a non-cancellation
failure of the agreements-list fetch itself is logged, and a cancellation of
it is never logged. -/
theorem partner_failure_handling_amended :
    (∀ (institutionId : String) (schools : List Institution)
      (data : List AgreementInstitution) (po : Nat → FetchResult Agreements),
      (getAndSetInstitutionAgreements institutionId schools (.ok data) po).logs = []) ∧
    (∀ (institutionId : String) (schools : List Institution)
      (po : Nat → FetchResult Agreements),
      (getAndSetInstitutionAgreements institutionId schools .canceled po).logs = []) ∧
    (∀ (institutionId : String) (schools : List Institution) (msg : String)
      (po : Nat → FetchResult Agreements),
      (getAndSetInstitutionAgreements institutionId schools (.failed msg) po).logs =
        ["Fetch agreements failed: " ++ msg]) ∧
    (∀ (recv : String) (a : ResolvedAgreement) (m : String),
      partnerSettled recv a (.failed m) = .rejected false ∨
      partnerSettled recv a (.failed m) = .fulfilled []) ∧
    (∀ (l1 l2 : List (SettledResult (List String))) (b : Bool),
      collectFulfilled (l1 ++ .rejected b :: l2) = collectFulfilled (l1 ++ l2)) := by
  refine ⟨fun _ _ _ _ => rfl, fun _ _ _ => rfl, fun _ _ _ _ => rfl, ?_,
    collectFulfilled_append_rejected⟩
  intro recv a m
  unfold partnerSettled
  cases partnerRequest recv a with
  | none => exact Or.inr rfl
  | some c => exact Or.inl rfl

/-- C10 as stated fails on the code: with an absent institutionName the
resolver substitutes the empty string, but a catalog whose first institution
has an empty display-name list does not resolve to that first institution:
the entry with no names is skipped and the second institution wins. -/
theorem absent_name_first_institution_cex :
    (resolveAgreement
      [⟨"AAA", [], "1", false, ""⟩,
       ⟨"BBB", [⟨"Alpha University", false, false⟩], "2", false, ""⟩]
      ⟨none, none, false, none, none, none, none⟩).id = some "2" ∧
    ¬ (resolveAgreement
      [⟨"AAA", [], "1", false, ""⟩,
       ⟨"BBB", [⟨"Alpha University", false, false⟩], "2", false, ""⟩]
      ⟨none, none, false, none, none, none, none⟩).id =
      (([⟨"AAA", [], "1", false, ""⟩,
         ⟨"BBB", [⟨"Alpha University", false, false⟩], "2", false, ""⟩] :
        List Institution).head?.map Institution.id) := by
  constructor
  · decide
  · decide

/-- C10 amended: with an absent institutionName the resolver substitutes the
empty string, every institution with at least one display name matches it,
so the resolved id is that of the first institution having a nonempty
display-name list, and the id is present exactly when some catalog
institution has a display name. -/
theorem absent_name_resolution_amended :
    ∀ (schools : List Institution) (school : AgreementInstitution),
      school.institutionName = none →
      (resolveAgreement schools school).id =
        (schools.find? (fun inst => !inst.names.isEmpty)).map Institution.id ∧
      ((resolveAgreement schools school).id.isSome = true ↔
        ∃ inst, inst ∈ schools ∧ inst.names ≠ []) := by
  intro schools school h
  have hid : (resolveAgreement schools school).id = resolveInstitutionId schools "" := by
    show resolveInstitutionId schools (school.institutionName.getD "") = _
    rw [h]
    rfl
  constructor
  · rw [hid, resolveInstitutionId_empty_needle]
  · rw [hid, resolveInstitutionId_empty_needle]
    cases hf : schools.find? (fun inst => !inst.names.isEmpty) with
    | none =>
      simp only [Option.map_none', Option.isSome_none]
      constructor
      · intro hfalse
        simp at hfalse
      · rintro ⟨inst, hmem, hne⟩
        have hnp := List.find?_eq_none.mp hf inst hmem
        simp [List.isEmpty_iff] at hnp
        exact absurd hnp hne
    | some inst =>
      simp only [Option.map_some', Option.isSome_some]
      constructor
      · intro _
        have hmem := List.mem_of_find?_eq_some hf
        have hp := List.find?_some hf
        refine ⟨inst, hmem, ?_⟩
        simp [List.isEmpty_iff] at hp
        exact hp
      · intro _
        trivial

/-- Witness for the amended C10 at a concrete catalog. -/
theorem absent_name_resolution_witness :
    ((⟨none, none, false, none, none, none, none⟩ : AgreementInstitution).institutionName
      = none) ∧
    ((resolveAgreement [⟨"AAA", [], "1", false, ""⟩]
        ⟨none, none, false, none, none, none, none⟩).id =
      (([⟨"AAA", [], "1", false, ""⟩] : List Institution).find?
        (fun inst => !inst.names.isEmpty)).map Institution.id ∧
     ((resolveAgreement [⟨"AAA", [], "1", false, ""⟩]
        ⟨none, none, false, none, none, none, none⟩).id.isSome = true ↔
       ∃ inst, inst ∈ ([⟨"AAA", [], "1", false, ""⟩] : List Institution) ∧
         inst.names ≠ [])) :=
  ⟨rfl, absent_name_resolution_amended _ _ rfl⟩
